import Mathlib

/-!
Verification of the greedy EV-charger placement heuristic of `baseline.py`.

The program ranks candidate sites by total outbound trip volume, then walks the
ranked list allocating chargers under a monetary budget (a fixed station cost
plus a per-charger cost), and distributes each funded site's capacity to areas
proportionally to the site's trip volumes, capping each area at its remaining
demand.  Finally it classifies areas into fully / partially / not covered and
reports a coverage percentage.

Embedding choices: Python ints (money, charger counts) become `ℤ` with
`Int.fdiv` for Python's floor division `//`; trip volumes and demands (floats
in the source) are idealised as exact rationals `ℚ`; the dictionaries
`site_chargers` and `area_served_trips` become functions updated with
`Function.update`; Python's stable `sorted(..., reverse=True)` becomes a
stable descending insertion sort.  Sites and areas are identified by `ℕ`.
-/

namespace EVPlacement

/-- The mutable state of the allocation loop in `baseline.py`:
`remaining_budget`, `site_chargers` and `area_served_trips`. -/
structure AllocState where
  remaining_budget : ℤ
  site_chargers : ℕ → ℤ
  area_served_trips : ℕ → ℚ

/-- Step 1 of the heuristic: total outgoing traffic per potential site
(`site_total_demand`).  The trip table is total with absent pairs being `0`,
so the sum over the area list equals both the Python `site_total_demand`
accumulation and the inner-loop `total_site_area_trips`. -/
def site_total_demand (tr : ℕ → ℕ → ℚ) (A : List ℕ) (site : ℕ) : ℚ :=
  (A.map fun a => tr site a).sum

/-- Insert a site into a descending-sorted list, after all sites of greater or
equal key: the stable insertion step underlying `sorted_sites`. -/
def insertRanked (key : ℕ → ℚ) (s : ℕ) : List ℕ → List ℕ
  | [] => [s]
  | x :: xs => if key s ≤ key x then x :: insertRanked key s xs else s :: x :: xs

/-- Step 2: sites sorted by total traffic, descending and stable, mirroring
`sorted(site_total_demand.items(), key=..., reverse=True)` (Python's sort is
stable; a stable sort for a fixed order is unique, so insertion sort is an
exact model). -/
def sorted_sites (tr : ℕ → ℕ → ℚ) (A P : List ℕ) : List ℕ :=
  P.foldl (fun acc s => insertRanked (site_total_demand tr A) s acc) []

/-- Lines 50-58 of `baseline.py`: the charger count before the affordability
re-clamp, `max(1, min(site_total_demand // CAP_SPOT + 1,
min(MAX_CHARGERS, remaining_budget // CHARGER_COST)))`. -/
def chargers_pre (C maxCh : ℤ) (cap T : ℚ) (B : ℤ) : ℤ :=
  let max_chargers_site := min maxCh (Int.fdiv B C)
  let max_utilizable_chargers := min (⌊T / cap⌋ + 1) max_chargers_site
  max 1 max_utilizable_chargers

/-- Lines 50-65 of `baseline.py`: the final charger count for a site, after
the affordability re-clamp `(remaining_budget - STATION_COST) //
CHARGER_COST` when the pre-clamp cost exceeds the remaining budget.  A result
`< 1` means the loop breaks. -/
def chargers_to_place (S C maxCh : ℤ) (cap T : ℚ) (B : ℤ) : ℤ :=
  let n := chargers_pre C maxCh cap T B
  if B < S + n * C then Int.fdiv (B - S) C else n

/-- Lines 75-81 of `baseline.py`: proportional distribution of a funded
site's capacity over the area list.  `w a` is `tr[(site, a)]`, `total` is
`total_site_area_trips`, `n` is `chargers_to_place`; each area with positive
trips and unmet demand receives
`min(n * CAP_SPOT * (w a / total), c a - already_served a)`. -/
def area_served_update (cap : ℚ) (c w : ℕ → ℚ) (total : ℚ) (n : ℤ) :
    List ℕ → (ℕ → ℚ) → ℕ → ℚ
  | [], served => served
  | area :: rest, served =>
    let served' :=
      if 0 < w area ∧ served area < c area then
        Function.update served area
          (served area + min ((n : ℚ) * cap * (w area / total)) (c area - served area))
      else served
    area_served_update cap c w total n rest served'

/-- Step 3 of the heuristic, lines 45-81 of `baseline.py`: the allocation
loop over the ranked sites.  It halts when the remaining budget cannot fund a
station with one charger, or when the re-clamped charger count drops below
one; otherwise it funds the site, records its chargers and distributes its
capacity. -/
def allocLoop (S C maxCh : ℤ) (cap : ℚ) (A : List ℕ) (c : ℕ → ℚ) (tr : ℕ → ℕ → ℚ) :
    List ℕ → AllocState → AllocState
  | [], st => st
  | site :: rest, st =>
    if st.remaining_budget < S + C then st
    else
      let T := site_total_demand tr A site
      let n := chargers_to_place S C maxCh cap T st.remaining_budget
      if n < 1 then st
      else
        allocLoop S C maxCh cap A c tr rest
          { remaining_budget := st.remaining_budget - (S + n * C)
            site_chargers := Function.update st.site_chargers site n
            area_served_trips :=
              area_served_update cap c (fun a => tr site a) T n A st.area_served_trips }

/-- `total_demand = sum(c[area] for area in A)`. -/
def total_demand (c : ℕ → ℚ) (A : List ℕ) : ℚ := (A.map c).sum

/-- `demand_covered = sum(min(area_served_trips[area], c[area]) for area in A)`. -/
def demand_covered (c : ℕ → ℚ) (A : List ℕ) (served : ℕ → ℚ) : ℚ :=
  (A.map fun a => min (served a) (c a)).sum

/-- `coverage_percent = (demand_covered / total_demand) * 100 if total_demand > 0 else 0`. -/
def coverage_percent (c : ℕ → ℚ) (A : List ℕ) (served : ℕ → ℚ) : ℚ :=
  if 0 < total_demand c A then demand_covered c A served / total_demand c A * 100 else 0

/-- `fully_covered_areas = [area for area in A if area_served_trips[area] >= c[area]]`. -/
def fully_covered_areas (c : ℕ → ℚ) (A : List ℕ) (served : ℕ → ℚ) : List ℕ :=
  A.filter fun a => decide (c a ≤ served a)

/-- `partially_covered_areas = [area for area in A if 0 < area_served_trips[area] < c[area]]`. -/
def partially_covered_areas (c : ℕ → ℚ) (A : List ℕ) (served : ℕ → ℚ) : List ℕ :=
  A.filter fun a => decide (0 < served a ∧ served a < c a)

/-- `not_covered_areas = [area for area in A if area_served_trips[area] == 0]`. -/
def not_covered_areas (A : List ℕ) (served : ℕ → ℚ) : List ℕ :=
  A.filter fun a => decide (served a = 0)

/-- The whole heuristic run: ranking followed by the allocation loop from the
initial state (full budget, no chargers, nothing served). -/
def runHeuristic (S C maxCh : ℤ) (cap : ℚ) (A P : List ℕ) (c : ℕ → ℚ)
    (tr : ℕ → ℕ → ℚ) (B : ℤ) : AllocState :=
  allocLoop S C maxCh cap A c tr (sorted_sites tr A P)
    { remaining_budget := B, site_chargers := fun _ => 0, area_served_trips := fun _ => 0 }

/-- `STATION_COST = 25_000` from `baseline.py`. -/
def STATION_COST : ℤ := 25000

/-- `CHARGER_COST = 5_000` from `baseline.py`. -/
def CHARGER_COST : ℤ := 5000

/-- `CAP_SPOT = 50_000` from `baseline.py`. -/
def CAP_SPOT : ℚ := 50000

/-- `MAX_CHARGERS = 30` from `baseline.py`. -/
def MAX_CHARGERS : ℤ := 30

/-- `BUDGET = 80 * 1_000_000` from `baseline.py`. -/
def BUDGET : ℤ := 80000000

/-- Modelled from the spec, for comparison with `chargers_to_place` (claim
about the section 4.2 cost-policy pipeline): the intermediate cap subtracts
the station cost first, `min(max_chargers_per_site,
(remaining_budget - station_cost) // charger_cost)`, and the result is then
re-clamped downward if its cost would exceed the remaining budget. -/
def chargers_to_place_spec (S C maxCh : ℤ) (cap T : ℚ) (B : ℤ) : ℤ :=
  let max_chargers_site := min maxCh (Int.fdiv (B - S) C)
  let max_utilizable_chargers := min (⌊T / cap⌋ + 1) max_chargers_site
  let n := max 1 max_utilizable_chargers
  if B < S + n * C then Int.fdiv (B - S) C else n

/-- Money spent at a site, read off from the final charger map: a site with
zero chargers was never funded (the loop always assigns at least one), and a
funded site cost `STATION_COST + chargers * CHARGER_COST`. -/
def site_spend (S C : ℤ) (ch : ℕ → ℤ) (p : ℕ) : ℤ :=
  if ch p = 0 then 0 else S + ch p * C

/-- Concrete trip table for counterexamples: a single site `0` sending `10`
trips to the single area `0`. -/
def tr_oversell : ℕ → ℕ → ℚ := fun s a => if s = 0 ∧ a = 0 then 10 else 0

/-- Concrete demand for counterexamples: every area demands `100000` trips. -/
def demand_oversell : ℕ → ℚ := fun _ => 100000

/-- Concrete zero demand (a degenerate but allowed input). -/
def demand_zero : ℕ → ℚ := fun _ => 0

/-- Concrete zero trip table. -/
def tr_zero : ℕ → ℕ → ℚ := fun _ _ => 0

/-- Concrete constant trip table used in witnesses. -/
def tr_const_five : ℕ → ℕ → ℚ := fun _ _ => 5

/-- Concrete constant demand used in witnesses. -/
def demand_const : ℕ → ℚ := fun _ => 100

/-! ### Lemmas about the proportional distribution step -/

section Dist

variable {cap : ℚ} {c w : ℕ → ℚ} {total : ℚ} {n n₁ n₂ : ℤ}

theorem add_min_sub_eq (s k d : ℚ) : s + min k (d - s) = min (s + k) d := by
  rcases le_total k (d - s) with h | h
  · rw [min_eq_left h, min_eq_left (by linarith)]
  · rw [min_eq_right h, min_eq_right (by linarith)]
    ring

theorem area_served_update_untouched {l : List ℕ} {s : ℕ → ℚ} {x : ℕ} (hx : x ∉ l) :
    area_served_update cap c w total n l s x = s x := by
  induction l generalizing s with
  | nil => rfl
  | cons a rest ih =>
    have hxa : x ≠ a := fun h => hx (h ▸ List.mem_cons_self a rest)
    have hxr : x ∉ rest := fun h => hx (List.mem_cons_of_mem a h)
    simp only [area_served_update]
    rw [ih hxr]
    split
    · exact Function.update_noteq hxa _ _
    · rfl

theorem area_served_update_le_c {l : List ℕ} {s : ℕ → ℚ}
    (hs : ∀ y, s y ≤ c y) : ∀ y, area_served_update cap c w total n l s y ≤ c y := by
  induction l generalizing s with
  | nil => exact hs
  | cons a rest ih =>
    intro y
    simp only [area_served_update]
    apply ih
    intro z
    split
    · rcases eq_or_ne z a with rfl | hz
      · rw [Function.update_same]
        have : min ((n : ℚ) * cap * (w z / total)) (c z - s z) ≤ c z - s z := min_le_right _ _
        linarith
      · rw [Function.update_noteq hz]
        exact hs z
    · exact hs z

theorem le_area_served_update {l : List ℕ} {s : ℕ → ℚ}
    (hn : 0 ≤ (n : ℚ)) (hcap : 0 ≤ cap) (hw : ∀ a ∈ l, 0 ≤ w a) (ht : 0 ≤ total) :
    ∀ y, s y ≤ area_served_update cap c w total n l s y := by
  induction l generalizing s with
  | nil => exact fun y => le_rfl
  | cons a rest ih =>
    intro y
    simp only [area_served_update]
    refine le_trans ?_ (ih (fun x hx => hw x (List.mem_cons_of_mem a hx)) y)
    split
    · rename_i hg
      rcases eq_or_ne y a with rfl | hy
      · rw [Function.update_same]
        have hk : 0 ≤ (n : ℚ) * cap * (w y / total) :=
          mul_nonneg (mul_nonneg hn hcap) (div_nonneg (hw y (List.mem_cons_self y rest)) ht)
        have := le_min hk (by linarith [hg.2] : (0:ℚ) ≤ c y - s y)
        linarith
      · rw [Function.update_noteq hy]
    · rfl

theorem area_served_update_mono {l : List ℕ} {s₁ s₂ : ℕ → ℚ}
    (h0 : 0 ≤ (n₁ : ℚ)) (hnn : n₁ ≤ n₂) (hcap : 0 ≤ cap)
    (hw : ∀ a ∈ l, 0 ≤ w a) (ht : 0 ≤ total) (hs : ∀ y, s₁ y ≤ s₂ y) :
    ∀ y, area_served_update cap c w total n₁ l s₁ y ≤ area_served_update cap c w total n₂ l s₂ y := by
  induction l generalizing s₁ s₂ with
  | nil => exact hs
  | cons a rest ih =>
    intro y
    simp only [area_served_update]
    have hwa : 0 ≤ w a := hw a (List.mem_cons_self a rest)
    have hshare : 0 ≤ w a / total := div_nonneg hwa ht
    have hk1 : 0 ≤ (n₁ : ℚ) * cap * (w a / total) := mul_nonneg (mul_nonneg h0 hcap) hshare
    have hk12 : (n₁ : ℚ) * cap * (w a / total) ≤ (n₂ : ℚ) * cap * (w a / total) := by
      have : (n₁ : ℚ) ≤ (n₂ : ℚ) := Int.cast_le.mpr hnn
      have := mul_le_mul_of_nonneg_right this hcap
      exact mul_le_mul_of_nonneg_right this hshare
    refine ih (fun x hx => hw x (List.mem_cons_of_mem a hx)) (fun z => ?_) y
    rcases eq_or_ne z a with rfl | hz
    · by_cases hg1 : 0 < w z ∧ s₁ z < c z <;> by_cases hg2 : 0 < w z ∧ s₂ z < c z
      · rw [if_pos hg1, if_pos hg2, Function.update_same, Function.update_same,
          add_min_sub_eq, add_min_sub_eq]
        exact min_le_min (add_le_add (hs z) hk12) le_rfl
      · rw [if_pos hg1, if_neg hg2, Function.update_same]
        have hc2 : c z ≤ s₂ z := by
          by_contra hcon
          exact hg2 ⟨hg1.1, lt_of_not_le hcon⟩
        rw [add_min_sub_eq]
        exact le_trans (min_le_right _ _) hc2
      · rw [if_neg hg1, if_pos hg2, Function.update_same]
        have hk2 : 0 ≤ (n₂ : ℚ) * cap * (w z / total) := le_trans hk1 hk12
        have := le_min hk2 (by linarith [hg2.2] : (0:ℚ) ≤ c z - s₂ z)
        linarith [hs z]
      · rw [if_neg hg1, if_neg hg2]
        exact hs z
    · split <;> split <;>
        first
          | exact hs z
          | (simp only [Function.update_noteq hz] ; exact hs z)

theorem area_served_update_step_le {l : List ℕ} {s : ℕ → ℚ} {a : ℕ} (ha : a ∉ l)
    (hk : 0 ≤ (n : ℚ) * cap * (w a / total)) :
    area_served_update cap c w total n (a :: l) s a - s a ≤ (n : ℚ) * cap * (w a / total) := by
  simp only [area_served_update]
  rw [area_served_update_untouched ha]
  split
  · rw [Function.update_same]
    have := min_le_left ((n : ℚ) * cap * (w a / total)) (c a - s a)
    linarith
  · linarith

theorem area_served_update_unmoved {s : ℕ → ℚ} {a x : ℕ} (hx : x ≠ a) :
    (if 0 < w a ∧ s a < c a then
        Function.update s a (s a + min ((n : ℚ) * cap * (w a / total)) (c a - s a))
      else s) x = s x := by
  split
  · exact Function.update_noteq hx _ _
  · rfl

theorem area_served_update_sum_le_shares {l : List ℕ} {s : ℕ → ℚ} (hnd : l.Nodup)
    (hk : ∀ a ∈ l, 0 ≤ (n : ℚ) * cap * (w a / total)) :
    ((l.map fun a => area_served_update cap c w total n l s a - s a)).sum ≤
      ((l.map fun a => (n : ℚ) * cap * (w a / total))).sum := by
  induction l generalizing s with
  | nil => simp
  | cons a rest ih =>
    have hanr : a ∉ rest := (List.nodup_cons.mp hnd).1
    have hndr : rest.Nodup := (List.nodup_cons.mp hnd).2
    simp only [List.map_cons, List.sum_cons]
    have hhead : area_served_update cap c w total n (a :: rest) s a - s a ≤
        (n : ℚ) * cap * (w a / total) :=
      area_served_update_step_le hanr (hk a (List.mem_cons_self a rest))
    set s' := (if 0 < w a ∧ s a < c a then
        Function.update s a (s a + min ((n : ℚ) * cap * (w a / total)) (c a - s a))
      else s) with hs'
    have htail1 : (rest.map fun x => area_served_update cap c w total n (a :: rest) s x - s x) =
        rest.map fun x => area_served_update cap c w total n rest s' x - s' x := by
      refine List.map_congr_left fun x hx => ?_
      have hxa : x ≠ a := fun h => hanr (h ▸ hx)
      have hsx : s' x = s x := by rw [hs']; exact area_served_update_unmoved hxa
      simp only [area_served_update]
      rw [← hs', hsx]
    calc (area_served_update cap c w total n (a :: rest) s a - s a) +
          ((rest.map fun x => area_served_update cap c w total n (a :: rest) s x - s x)).sum
        ≤ (n : ℚ) * cap * (w a / total) +
          ((rest.map fun x => area_served_update cap c w total n rest s' x - s' x)).sum := by
          rw [htail1]; exact add_le_add_right hhead _
      _ ≤ (n : ℚ) * cap * (w a / total) +
          ((rest.map fun x => (n : ℚ) * cap * (w x / total))).sum :=
          add_le_add_left (ih hndr (fun x hx => hk x (List.mem_cons_of_mem a hx))) _

theorem area_served_update_sum_le {l : List ℕ} {s : ℕ → ℚ} (hnd : l.Nodup)
    (hw : ∀ a ∈ l, 0 ≤ w a) (hn : 0 ≤ (n : ℚ)) (hcap : 0 ≤ cap)
    (htot : total = (l.map w).sum) :
    ((l.map fun a => area_served_update cap c w total n l s a - s a)).sum ≤ (n : ℚ) * cap := by
  have ht0 : 0 ≤ total := htot ▸ List.sum_nonneg (by
    intro x hx
    rcases List.mem_map.mp hx with ⟨a, ha, rfl⟩
    exact hw a ha)
  have hk : ∀ a ∈ l, 0 ≤ (n : ℚ) * cap * (w a / total) := fun a ha =>
    mul_nonneg (mul_nonneg hn hcap) (div_nonneg (hw a ha) ht0)
  refine le_trans (area_served_update_sum_le_shares hnd hk) ?_
  rcases eq_or_ne total 0 with h0 | h0
  · have : ∀ a ∈ l, (n : ℚ) * cap * (w a / total) = 0 := by
      intro a _
      rw [h0, div_zero, mul_zero]
    rw [List.map_congr_left this]
    simp [mul_nonneg hn hcap]
  · have : ∀ a ∈ l, (n : ℚ) * cap * (w a / total) = (n : ℚ) * cap / total * w a := by
      intro a _; ring
    rw [List.map_congr_left this, List.sum_map_mul_left, ← htot,
      div_mul_cancel₀ _ h0]

theorem area_served_update_le_tripedge {l : List ℕ} {s : ℕ → ℚ} (hnd : l.Nodup)
    (hw : ∀ a ∈ l, 0 ≤ w a) (ht0 : 0 ≤ total) (hsat : (n : ℚ) * cap ≤ total) :
    ∀ a ∈ l, area_served_update cap c w total n l s a - s a ≤ w a := by
  induction l generalizing s with
  | nil => intro a ha; cases ha
  | cons b rest ih =>
    have hbnr : b ∉ rest := (List.nodup_cons.mp hnd).1
    have hndr : rest.Nodup := (List.nodup_cons.mp hnd).2
    intro a ha
    rcases List.mem_cons.mp ha with rfl | har
    · have hwa : 0 ≤ w a := hw a (List.mem_cons_self a rest)
      have hkw : (n : ℚ) * cap * (w a / total) ≤ w a := by
        rcases eq_or_ne total 0 with h0 | h0
        · rw [h0, div_zero, mul_zero]; exact hwa
        · calc (n : ℚ) * cap * (w a / total) ≤ total * (w a / total) :=
                mul_le_mul_of_nonneg_right hsat (div_nonneg hwa ht0)
            _ = w a := by field_simp
      simp only [area_served_update]
      rw [area_served_update_untouched hbnr]
      split
      · rw [Function.update_same]
        have := min_le_left ((n : ℚ) * cap * (w a / total)) (c a - s a)
        linarith
      · linarith
    · simp only [area_served_update]
      set s' := (if 0 < w b ∧ s b < c b then
          Function.update s b (s b + min ((n : ℚ) * cap * (w b / total)) (c b - s b))
        else s) with hs'
      have hxa : a ≠ b := fun h => hbnr (h ▸ har)
      have hsx : s' a = s a := by rw [hs']; exact area_served_update_unmoved hxa
      rw [← hsx]
      exact ih hndr (fun x hx => hw x (List.mem_cons_of_mem b hx)) a har

theorem area_served_update_no_trips {l : List ℕ} {s : ℕ → ℚ} (h : ∀ a ∈ l, w a = 0) :
    area_served_update cap c w total n l s = s := by
  induction l generalizing s with
  | nil => rfl
  | cons a rest ih =>
    simp only [area_served_update]
    have hg : ¬ (0 < w a ∧ s a < c a) := by
      intro hcon
      rw [h a (List.mem_cons_self a rest)] at hcon
      exact lt_irrefl 0 hcon.1
    rw [if_neg hg]
    exact ih fun x hx => h x (List.mem_cons_of_mem a hx)

end Dist

/-! ### Lemmas about the charger-count computation -/

section Chargers

variable {S C maxCh : ℤ} {cap T : ℚ} {B : ℤ}

theorem one_le_floor_ratio_succ (hT : 0 ≤ T) (hcap : 0 ≤ cap) : 1 ≤ ⌊T / cap⌋ + 1 := by
  have : (0:ℤ) ≤ ⌊T / cap⌋ := Int.floor_nonneg.mpr (div_nonneg hT hcap)
  omega

theorem one_le_fdiv_budget (hC : 0 < C) (hB : S + C ≤ B) : 1 ≤ Int.fdiv (B - S) C := by
  rw [Int.fdiv_eq_ediv _ hC.le, Int.le_ediv_iff_mul_le hC, one_mul]
  omega

theorem fdiv_cost_le (hC : 0 < C) : S + Int.fdiv (B - S) C * C ≤ B := by
  rw [Int.fdiv_eq_ediv _ hC.le]
  have := Int.ediv_mul_le (B - S) hC.ne'
  linarith

theorem fdiv_budget_mono (hC : 0 < C) {B₁ B₂ : ℤ} (h : B₁ ≤ B₂) :
    Int.fdiv (B₁ - S) C ≤ Int.fdiv (B₂ - S) C := by
  rw [Int.fdiv_eq_ediv _ hC.le, Int.fdiv_eq_ediv _ hC.le]
  exact Int.ediv_le_ediv hC (by omega)

theorem cost_exceeds_of_fdiv_lt (hC : 0 < C) {m : ℤ} (hm : Int.fdiv (B - S) C < m) :
    B < S + m * C := by
  rw [Int.fdiv_eq_ediv _ hC.le] at hm
  have h1 := Int.lt_ediv_add_one_mul_self (B - S) hC
  have h2 : ((B - S) / C + 1) * C ≤ m * C :=
    mul_le_mul_of_nonneg_right (by omega) hC.le
  linarith

/-- Under the loop guard `S + C ≤ B`, the post-re-clamp charger count computed
by the code has a closed normal form in which the budget cap subtracts the
station cost first. -/
theorem chargers_to_place_eq (hC : 0 < C) (hS : 0 ≤ S) (hT : 0 ≤ T) (hcap : 0 ≤ cap)
    (hB : S + C ≤ B) :
    chargers_to_place S C maxCh cap T B =
      max 1 (min (⌊T / cap⌋ + 1) (min maxCh (Int.fdiv (B - S) C))) := by
  simp only [chargers_to_place, chargers_pre]
  set t := ⌊T / cap⌋ + 1 with ht
  set k := Int.fdiv (B - S) C with hkdef
  set q := Int.fdiv B C with hq
  have ht1 : 1 ≤ t := one_le_floor_ratio_succ hT hcap
  have hk1 : 1 ≤ k := one_le_fdiv_budget hC hB
  have hkq : k ≤ q := by
    rw [hkdef, hq, Int.fdiv_eq_ediv _ hC.le, Int.fdiv_eq_ediv _ hC.le]
    exact Int.ediv_le_ediv hC (by omega)
  have hcost : S + k * C ≤ B := fdiv_cost_le hC
  rcases le_or_lt (min t maxCh) k with hcase | hcase
  · have e1 : min t (min maxCh q) = min t maxCh := by
      rw [← min_assoc]
      exact min_eq_left (le_trans hcase hkq)
    have e2 : min t (min maxCh k) = min t maxCh := by
      rw [← min_assoc]
      exact min_eq_left hcase
    rw [e1, e2]
    have hle : max 1 (min t maxCh) ≤ k := max_le hk1 hcase
    have hnot : ¬ B < S + max 1 (min t maxCh) * C := by
      push_neg
      have := mul_le_mul_of_nonneg_right hle hC.le
      linarith
    rw [if_neg hnot]
  · have e2 : min t (min maxCh k) = k := by
      rw [← min_assoc]
      exact min_eq_right hcase.le
    rw [e2, max_eq_right hk1]
    have hkt : k ≤ t := le_of_lt (lt_of_lt_of_le hcase (min_le_left _ _))
    have hkM : k ≤ maxCh := le_of_lt (lt_of_lt_of_le hcase (min_le_right _ _))
    have hkx : k ≤ min t (min maxCh q) := le_min hkt (le_min hkM hkq)
    have hmax : max 1 (min t (min maxCh q)) = min t (min maxCh q) :=
      max_eq_right (le_trans hk1 hkx)
    rw [hmax]
    rcases eq_or_lt_of_le hkx with heq | hlt
    · rw [if_neg (by push_neg; rw [← heq]; exact hcost)]
      exact heq.symm
    · rw [if_pos (cost_exceeds_of_fdiv_lt hC hlt)]

/-- The spec-modelled pipeline has the same normal form under the loop
guard; in particular its re-clamp branch never fires there. -/
theorem chargers_to_place_spec_eq (hC : 0 < C) (hB : S + C ≤ B) :
    chargers_to_place_spec S C maxCh cap T B =
      max 1 (min (⌊T / cap⌋ + 1) (min maxCh (Int.fdiv (B - S) C))) := by
  simp only [chargers_to_place_spec]
  set t := ⌊T / cap⌋ + 1 with ht
  set k := Int.fdiv (B - S) C with hkdef
  have hk1 : 1 ≤ k := one_le_fdiv_budget hC hB
  have hcost : S + k * C ≤ B := fdiv_cost_le hC
  have hle : max 1 (min t (min maxCh k)) ≤ k :=
    max_le hk1 (le_trans (min_le_right _ _) (min_le_right _ _))
  have hnot : ¬ B < S + max 1 (min t (min maxCh k)) * C := by
    push_neg
    have := mul_le_mul_of_nonneg_right hle hC.le
    linarith
  rw [if_neg hnot]

/-- If the normal forms at two budgets differ, the smaller one was
budget-capped: it equals `(B₁ - S) fdiv C` exactly. -/
theorem chargers_budget_capped {t M k₁ k₂ : ℤ} (hk1 : 1 ≤ k₁) (hkk : k₁ ≤ k₂)
    (hlt : max 1 (min t (min M k₁)) < max 1 (min t (min M k₂))) :
    max 1 (min t (min M k₁)) = k₁ := by
  rcases le_or_lt (min t M) k₁ with hc | hc
  · exfalso
    have e1 : min t (min M k₁) = min t M := by rw [← min_assoc]; exact min_eq_left hc
    have e2 : min t (min M k₂) = min t M := by
      rw [← min_assoc]; exact min_eq_left (le_trans hc hkk)
    rw [e1, e2] at hlt
    exact lt_irrefl _ hlt
  · have e1 : min t (min M k₁) = k₁ := by rw [← min_assoc]; exact min_eq_right hc.le
    rw [e1, max_eq_right hk1]

end Chargers

/-! ### Lemmas about the allocation loop -/

section Loop

variable {S C maxCh : ℤ} {cap : ℚ} {A : List ℕ} {c : ℕ → ℚ} {tr : ℕ → ℕ → ℚ}

theorem site_total_demand_nonneg (htr : ∀ s a, 0 ≤ tr s a) (A : List ℕ) (site : ℕ) :
    0 ≤ site_total_demand tr A site := by
  refine List.sum_nonneg ?_
  intro x hx
  rcases List.mem_map.mp hx with ⟨a, _, rfl⟩
  exact htr site a

theorem allocLoop_halt {sites : List ℕ} {st : AllocState}
    (h : st.remaining_budget < S + C) :
    allocLoop S C maxCh cap A c tr sites st = st := by
  cases sites with
  | nil => rfl
  | cons site rest => simp only [allocLoop, if_pos h]

theorem allocLoop_cons_funded {site : ℕ} {rest : List ℕ} {st : AllocState}
    (hg : ¬ st.remaining_budget < S + C)
    (hn : ¬ chargers_to_place S C maxCh cap (site_total_demand tr A site)
      st.remaining_budget < 1) :
    allocLoop S C maxCh cap A c tr (site :: rest) st =
      allocLoop S C maxCh cap A c tr rest
        { remaining_budget := st.remaining_budget -
            (S + chargers_to_place S C maxCh cap (site_total_demand tr A site)
              st.remaining_budget * C)
          site_chargers := Function.update st.site_chargers site
            (chargers_to_place S C maxCh cap (site_total_demand tr A site)
              st.remaining_budget)
          area_served_trips := area_served_update cap c (fun a => tr site a)
            (site_total_demand tr A site)
            (chargers_to_place S C maxCh cap (site_total_demand tr A site)
              st.remaining_budget) A st.area_served_trips } := by
  simp only [allocLoop, if_neg hg, if_neg hn]

theorem allocLoop_chargers_untouched {sites : List ℕ} {st : AllocState} {p : ℕ}
    (hp : p ∉ sites) :
    (allocLoop S C maxCh cap A c tr sites st).site_chargers p = st.site_chargers p := by
  induction sites generalizing st with
  | nil => rfl
  | cons site rest ih =>
    have hps : p ≠ site := fun h => hp (h ▸ List.mem_cons_self site rest)
    have hpr : p ∉ rest := fun h => hp (List.mem_cons_of_mem site h)
    simp only [allocLoop]
    split
    · rfl
    · split
      · rfl
      · rw [ih hpr]
        exact Function.update_noteq hps _ _

theorem le_allocLoop_served (hcap : 0 ≤ cap) (htr : ∀ s a, 0 ≤ tr s a)
    {sites : List ℕ} {st : AllocState} :
    ∀ y, st.area_served_trips y ≤
      (allocLoop S C maxCh cap A c tr sites st).area_served_trips y := by
  induction sites generalizing st with
  | nil => exact fun y => le_rfl
  | cons site rest ih =>
    intro y
    simp only [allocLoop]
    split
    · exact le_rfl
    · split
      · exact le_rfl
      · rename_i hg hn
        refine le_trans ?_ (ih y)
        refine le_area_served_update ?_ hcap (fun a _ => htr site a)
          (site_total_demand_nonneg htr A site) y
        have : (1:ℤ) ≤ chargers_to_place S C maxCh cap (site_total_demand tr A site)
            st.remaining_budget := by omega
        exact_mod_cast le_trans zero_le_one (Int.cast_le.mpr this)

theorem allocLoop_served_le_c {sites : List ℕ} {st : AllocState}
    (hs : ∀ y, st.area_served_trips y ≤ c y) :
    ∀ y, (allocLoop S C maxCh cap A c tr sites st).area_served_trips y ≤ c y := by
  induction sites generalizing st with
  | nil => exact hs
  | cons site rest ih =>
    intro y
    simp only [allocLoop]
    split
    · exact hs y
    · split
      · exact hs y
      · exact ih (area_served_update_le_c hs) y

theorem cost_le_of_chargers_to_place (hC : 0 < C) {T : ℚ} {B : ℤ} :
    S + chargers_to_place S C maxCh cap T B * C ≤ B := by
  simp only [chargers_to_place]
  split
  · exact fdiv_cost_le hC
  · rename_i h
    push_neg at h
    exact h

theorem allocLoop_budget_nonneg (hC : 0 < C) {sites : List ℕ} {st : AllocState}
    (h0 : 0 ≤ st.remaining_budget) :
    0 ≤ (allocLoop S C maxCh cap A c tr sites st).remaining_budget := by
  induction sites generalizing st with
  | nil => exact h0
  | cons site rest ih =>
    simp only [allocLoop]
    split
    · exact h0
    · split
      · exact h0
      · refine ih ?_
        have := @cost_le_of_chargers_to_place S C maxCh cap hC
          (site_total_demand tr A site) st.remaining_budget
        simp only
        linarith

theorem spend_sum_zero {S C : ℤ} {l : List ℕ} {ch : ℕ → ℤ} (h : ∀ p ∈ l, ch p = 0) :
    ((l.map fun p => site_spend S C ch p)).sum = 0 := by
  have he : ∀ p ∈ l, site_spend S C ch p = (fun _ => (0:ℤ)) p := by
    intro p hp
    simp [site_spend, h p hp]
  rw [List.map_congr_left he, List.map_const']
  simp

theorem allocLoop_budget_accounting {sites : List ℕ} {st : AllocState}
    (hnd : sites.Nodup) (hzero : ∀ p ∈ sites, st.site_chargers p = 0) :
    (allocLoop S C maxCh cap A c tr sites st).remaining_budget +
      ((sites.map fun p =>
        site_spend S C (allocLoop S C maxCh cap A c tr sites st).site_chargers p)).sum =
      st.remaining_budget := by
  induction sites generalizing st with
  | nil => simp [allocLoop]
  | cons site rest ih =>
    have hsnr : site ∉ rest := (List.nodup_cons.mp hnd).1
    have hndr : rest.Nodup := (List.nodup_cons.mp hnd).2
    simp only [allocLoop]
    split
    · rw [spend_sum_zero hzero]
      ring
    · split
      · rw [spend_sum_zero hzero]
        ring
      · rename_i hg hn
        set nch := chargers_to_place S C maxCh cap (site_total_demand tr A site)
          st.remaining_budget with hnch
        set st' : AllocState :=
          { remaining_budget := st.remaining_budget - (S + nch * C)
            site_chargers := Function.update st.site_chargers site nch
            area_served_trips := area_served_update cap c (fun a => tr site a)
              (site_total_demand tr A site) nch A st.area_served_trips } with hst'
        have hzero' : ∀ p ∈ rest, st'.site_chargers p = 0 := by
          intro p hp
          have hps : p ≠ site := fun h => hsnr (h ▸ hp)
          show Function.update st.site_chargers site nch p = 0
          rw [Function.update_noteq hps]
          exact hzero p (List.mem_cons_of_mem site hp)
        have hch : (allocLoop S C maxCh cap A c tr rest st').site_chargers site = nch := by
          rw [allocLoop_chargers_untouched hsnr]
          exact Function.update_same site nch st.site_chargers
        have hspend : site_spend S C
            (allocLoop S C maxCh cap A c tr rest st').site_chargers site = S + nch * C := by
          rw [site_spend, hch, if_neg (by omega)]
        have hih := ih hndr hzero'
        simp only [List.map_cons, List.sum_cons, hspend]
        have hb' : st'.remaining_budget = st.remaining_budget - (S + nch * C) := rfl
        linarith [hih, hb'.symm.le]

/-- The key domination argument for budget monotonicity: a run started with a
larger budget (and pointwise larger served state) ends with a pointwise
larger served state.  When the smaller-budget run is budget-capped at a site
and ends up with more money left than the larger run, its leftover is the
remainder `(B - S) mod C < C`, so it halts at the very next site anyway. -/
theorem allocLoop_served_mono (hC : 0 < C) (hS : 0 ≤ S) (hcap : 0 ≤ cap)
    (htr : ∀ s a, 0 ≤ tr s a) {sites : List ℕ} {st₁ st₂ : AllocState}
    (hb : st₁.remaining_budget ≤ st₂.remaining_budget)
    (hs : ∀ y, st₁.area_served_trips y ≤ st₂.area_served_trips y) :
    ∀ y, (allocLoop S C maxCh cap A c tr sites st₁).area_served_trips y ≤
      (allocLoop S C maxCh cap A c tr sites st₂).area_served_trips y := by
  induction sites generalizing st₁ st₂ with
  | nil => exact hs
  | cons site rest ih =>
    intro y
    by_cases hg1 : st₁.remaining_budget < S + C
    · rw [allocLoop_halt hg1]
      exact le_trans (hs y) (le_allocLoop_served hcap htr y)
    · have hg2 : ¬ st₂.remaining_budget < S + C := fun h => hg1 (lt_of_le_of_lt hb h)
      have hg1' : S + C ≤ st₁.remaining_budget := not_lt.mp hg1
      have hg2' : S + C ≤ st₂.remaining_budget := not_lt.mp hg2
      have hT0 : 0 ≤ site_total_demand tr A site := site_total_demand_nonneg htr A site
      have hn1eq := @chargers_to_place_eq S C maxCh cap (site_total_demand tr A site)
        st₁.remaining_budget hC hS hT0 hcap hg1'
      have hn2eq := @chargers_to_place_eq S C maxCh cap (site_total_demand tr A site)
        st₂.remaining_budget hC hS hT0 hcap hg2'
      set T := site_total_demand tr A site with hTdef
      set t := ⌊T / cap⌋ + 1 with htdef
      set k₁ := Int.fdiv (st₁.remaining_budget - S) C with hk1def
      set k₂ := Int.fdiv (st₂.remaining_budget - S) C with hk2def
      set n₁ := max 1 (min t (min maxCh k₁)) with hn1def
      set n₂ := max 1 (min t (min maxCh k₂)) with hn2def
      have h11 : (1:ℤ) ≤ n₁ := le_max_left _ _
      have h12 : (1:ℤ) ≤ n₂ := le_max_left _ _
      have hkk : k₁ ≤ k₂ := fdiv_budget_mono hC hb
      have hnn : n₁ ≤ n₂ :=
        max_le_max le_rfl (min_le_min le_rfl (min_le_min le_rfl hkk))
      have hlt1 : ¬ chargers_to_place S C maxCh cap T st₁.remaining_budget < 1 := by
        rw [hn1eq]; omega
      have hlt2 : ¬ chargers_to_place S C maxCh cap T st₂.remaining_budget < 1 := by
        rw [hn2eq]; omega
      rw [allocLoop_cons_funded hg1 hlt1, allocLoop_cons_funded hg2 hlt2]
      rw [hn1eq, hn2eq]
      have hsd : ∀ z,
          area_served_update cap c (fun a => tr site a) T n₁ A st₁.area_served_trips z ≤
          area_served_update cap c (fun a => tr site a) T n₂ A st₂.area_served_trips z :=
        area_served_update_mono (by exact_mod_cast le_trans zero_le_one (Int.cast_le.mpr h11))
          hnn hcap (fun a _ => htr site a) hT0 hs
      by_cases hbb : st₁.remaining_budget - (S + n₁ * C) ≤ st₂.remaining_budget - (S + n₂ * C)
      · exact ih hbb hsd y
      · push_neg at hbb
        have hn12 : n₁ < n₂ := by
          by_contra hcon
          push_neg at hcon
          have := mul_le_mul_of_nonneg_right hcon hC.le
          linarith
        have hk11 : (1:ℤ) ≤ k₁ := one_le_fdiv_budget hC hg1'
        have hcapped : n₁ = k₁ := by
          rw [hn1def]
          exact chargers_budget_capped hk11 hkk (by rw [← hn1def, ← hn2def]; exact hn12)
        have hmod : st₁.remaining_budget - (S + n₁ * C) < C := by
          rw [hcapped, hk1def, Int.fdiv_eq_ediv _ hC.le]
          have h1 := Int.lt_ediv_add_one_mul_self (st₁.remaining_budget - S) hC
          have h2 : ((st₁.remaining_budget - S) / C + 1) * C =
              (st₁.remaining_budget - S) / C * C + C := by ring
          linarith
        have hhalts : st₁.remaining_budget - (S + n₁ * C) < S + C := by linarith
        rw [allocLoop_halt (by exact hhalts)]
        exact le_trans (hsd y) (le_allocLoop_served hcap htr y)

end Loop

/-! ### The ranked site list is a permutation of the site list -/

theorem insertRanked_perm (key : ℕ → ℚ) (s : ℕ) (l : List ℕ) :
    (insertRanked key s l).Perm (s :: l) := by
  induction l with
  | nil => exact List.Perm.refl _
  | cons x xs ih =>
    simp only [insertRanked]
    split
    · exact (ih.cons x).trans (List.Perm.swap s x xs)
    · exact List.Perm.refl _

theorem foldl_insertRanked_perm (key : ℕ → ℚ) :
    ∀ (P acc : List ℕ), (P.foldl (fun acc s => insertRanked key s acc) acc).Perm (acc ++ P) := by
  intro P
  induction P with
  | nil => intro acc; simp
  | cons p ps ih =>
    intro acc
    have h1 := ih (insertRanked key p acc)
    have h2 : (insertRanked key p acc ++ ps).Perm ((p :: acc) ++ ps) :=
      (insertRanked_perm key p acc).append_right ps
    have h3 : ((p :: acc) ++ ps).Perm (acc ++ p :: ps) := List.perm_middle.symm
    exact (h1.trans h2).trans h3

theorem sorted_sites_perm (tr : ℕ → ℕ → ℚ) (A P : List ℕ) :
    (sorted_sites tr A P).Perm P := by
  have := foldl_insertRanked_perm (site_total_demand tr A) P []
  simpa [sorted_sites] using this

/-! ### Coverage classification partition -/

theorem covered_partition_count {c served : ℕ → ℚ} :
    ∀ {A : List ℕ}, (∀ a ∈ A, 0 < c a) → (∀ a ∈ A, 0 ≤ served a) →
      (fully_covered_areas c A served).length + (partially_covered_areas c A served).length +
        (not_covered_areas A served).length = A.length := by
  intro A
  induction A with
  | nil => intro _ _; rfl
  | cons a rest ih =>
    intro hc hserved
    have hca : 0 < c a := hc a (List.mem_cons_self a rest)
    have hsa : 0 ≤ served a := hserved a (List.mem_cons_self a rest)
    have ihr := ih (fun x hx => hc x (List.mem_cons_of_mem a hx))
      (fun x hx => hserved x (List.mem_cons_of_mem a hx))
    simp only [fully_covered_areas, partially_covered_areas, not_covered_areas,
      List.filter_cons] at ihr ⊢
    rcases eq_or_lt_of_le hsa with hzero | hpos
    · have h1 : ¬ c a ≤ served a := by rw [← hzero]; exact not_le.mpr hca
      have h2 : ¬ (0 < served a ∧ served a < c a) := fun hcon => lt_irrefl _ (hzero ▸ hcon.1)
      rw [if_neg (by simp [h1]), if_neg (by simp [h2]), if_pos (by simp [hzero.symm])]
      simp only [List.length_cons]
      omega
    · by_cases hfull : c a ≤ served a
      · have h2 : ¬ (0 < served a ∧ served a < c a) := fun hcon =>
          absurd hfull (not_le.mpr hcon.2)
        rw [if_pos (by simp [hfull]), if_neg (by simp [h2]),
          if_neg (by simp [ne_of_gt hpos])]
        simp only [List.length_cons]
        omega
      · have h2 : 0 < served a ∧ served a < c a := ⟨hpos, lt_of_not_le hfull⟩
        rw [if_neg (by simp [hfull]), if_pos (by simp [h2]),
          if_neg (by simp [ne_of_gt hpos])]
        simp only [List.length_cons]
        omega

/-! ### Claim theorems -/

/-- C1, counterexample.  The claimed non-oversell invariant
`Served(site, area) ≤ TripEdge(site, area)` fails on the code: with the
source constants, one site `0`, one area `0`, demand `100000` and a trip
edge of only `10`, the funded site gets one charger and the proportional
policy serves `min(1 * 50000 * (10 / 10), 100000 - 0) = 50000 > 10` trips,
so the claim as stated is false (with a single site the aggregated
`area_served_trips` equals the per-pair served amount). -/
theorem C1_nonoversell_counterexample :
    (runHeuristic STATION_COST CHARGER_COST MAX_CHARGERS CAP_SPOT [0] [0]
        demand_oversell tr_oversell BUDGET).area_served_trips 0 = 50000 ∧
      tr_oversell 0 0 = 10 ∧
      ¬ ((runHeuristic STATION_COST CHARGER_COST MAX_CHARGERS CAP_SPOT [0] [0]
        demand_oversell tr_oversell BUDGET).area_served_trips 0 ≤ tr_oversell 0 0) := by
  refine ⟨by with_unfolding_all rfl, rfl, by with_unfolding_all decide⟩

/-- C1, amended.  The per-pair served amount
`min(chargers_to_place * CAP_SPOT * proportion, remaining demand)` is in
general bounded by the remaining area demand, not by the trip edge; the
non-oversell bound `Served(site, area) ≤ TripEdge(site, area)` does hold
whenever the site's built capacity `chargers * capacity_per_charger` does not
exceed the site's total trip volume. -/
theorem C1_oversell_bound_when_unsaturated {cap : ℚ} {c : ℕ → ℚ} {tr : ℕ → ℕ → ℚ}
    {A : List ℕ} {served : ℕ → ℚ} {site : ℕ} {n : ℤ} (hnd : A.Nodup)
    (htr : ∀ a ∈ A, 0 ≤ tr site a)
    (hsat : (n : ℚ) * cap ≤ site_total_demand tr A site) :
    ∀ a ∈ A,
      area_served_update cap c (fun x => tr site x) (site_total_demand tr A site) n A
        served a - served a ≤ tr site a := by
  have ht0 : 0 ≤ site_total_demand tr A site := by
    refine List.sum_nonneg ?_
    intro x hx
    rcases List.mem_map.mp hx with ⟨a, ha, rfl⟩
    exact htr a ha
  exact area_served_update_le_tripedge hnd htr ht0 hsat

/-- Witness for the amended C1 bound at a concrete unsaturated input
(`2` areas, `5` trips each, one charger of capacity `8 ≤ 10`). -/
theorem C1_oversell_bound_when_unsaturated_witness :
    area_served_update 8 demand_const (fun x => tr_const_five 0 x)
      (site_total_demand tr_const_five [0, 1] 0) 1 [0, 1]
      (fun _ => 0) 0 - (fun _ => (0:ℚ)) 0 ≤ tr_const_five 0 0 :=
  C1_oversell_bound_when_unsaturated (by decide)
    (by with_unfolding_all decide)
    (by with_unfolding_all decide) 0 (by decide)

/-- C2.  For every site funded under the cost policy (the loop guard
`station_cost + charger_cost ≤ remaining_budget` holds), the charger count
computed by the code — whose intermediate cap is
`min(MAX_CHARGERS, remaining_budget // CHARGER_COST)` without subtracting the
station cost — equals the spec's pipeline, whose cap is
`min(max_chargers_per_site, (remaining_budget - station_cost) // charger_cost)`:
the affordability re-clamp makes the two agree. -/
theorem C2_cost_budget_charger_count {S C maxCh : ℤ} {cap T : ℚ} {B : ℤ}
    (hC : 0 < C) (hS : 0 ≤ S) (hT : 0 ≤ T) (hcap : 0 ≤ cap) (hB : S + C ≤ B) :
    chargers_to_place S C maxCh cap T B = chargers_to_place_spec S C maxCh cap T B := by
  rw [chargers_to_place_eq hC hS hT hcap hB, chargers_to_place_spec_eq hC hB]

/-- Witness for C2 at the source constants and a mid-sized trip volume. -/
theorem C2_cost_budget_charger_count_witness :
    chargers_to_place STATION_COST CHARGER_COST MAX_CHARGERS CAP_SPOT 123456 BUDGET =
      chargers_to_place_spec STATION_COST CHARGER_COST MAX_CHARGERS CAP_SPOT 123456 BUDGET :=
  C2_cost_budget_charger_count (by decide) (by decide)
    (by with_unfolding_all decide) (by with_unfolding_all decide) (by decide)

/-- C3.  Capacity invariant: the trips served from one site across all areas
by the proportional distribution step total at most
`chargers * capacity_per_charger` — exactly, with no numeric tolerance needed
in the exact-rational model, since the shares `trips / total` sum to at most
one. -/
theorem C3_capacity_invariant {cap : ℚ} {c : ℕ → ℚ} {tr : ℕ → ℕ → ℚ}
    {A : List ℕ} {served : ℕ → ℚ} {site : ℕ} {n : ℤ} (hnd : A.Nodup)
    (htr : ∀ a ∈ A, 0 ≤ tr site a) (hn : 0 ≤ n) (hcap : 0 ≤ cap) :
    ((A.map fun a =>
      area_served_update cap c (fun x => tr site x) (site_total_demand tr A site) n A
        served a - served a)).sum ≤ (n : ℚ) * cap :=
  area_served_update_sum_le hnd htr (by exact_mod_cast hn) hcap rfl

/-- Witness for C3 at a concrete input (two areas, one charger). -/
theorem C3_capacity_invariant_witness :
    ((([0, 1] : List ℕ).map fun a =>
      area_served_update 8 demand_const (fun x => tr_const_five 0 x)
        (site_total_demand tr_const_five [0, 1] 0) 1 [0, 1]
        (fun _ => 0) a - (fun _ => (0:ℚ)) a)).sum ≤ ((1 : ℤ) : ℚ) * 8 :=
  C3_capacity_invariant (by decide) (by with_unfolding_all decide)
    (by decide) (by with_unfolding_all decide)

/-- C4.  Proportional demand-awareness: from any state whose served amounts
are below demand, every further state of the ranked-site iteration keeps
`served_total(area) ≤ demand(area)` — each assignment is capped by
`demand - already_served` and areas at full demand receive nothing — and in
particular the full heuristic run satisfies the bound by construction,
before any Coverage Analyzer capping. -/
theorem C4_proportional_demand_aware {S C maxCh : ℤ} {cap : ℚ} {A P : List ℕ}
    {c : ℕ → ℚ} {tr : ℕ → ℕ → ℚ} {B : ℤ} (hc : ∀ y, 0 ≤ c y) :
    (∀ (sites : List ℕ) (st : AllocState), (∀ y, st.area_served_trips y ≤ c y) →
      ∀ y, (allocLoop S C maxCh cap A c tr sites st).area_served_trips y ≤ c y) ∧
    (∀ y, (runHeuristic S C maxCh cap A P c tr B).area_served_trips y ≤ c y) := by
  refine ⟨fun sites st hs => allocLoop_served_le_c hs, ?_⟩
  exact allocLoop_served_le_c fun y => hc y

/-- Witness for C4 at the oversell input: served never exceeds the demand
of `100000`. -/
theorem C4_proportional_demand_aware_witness :
    (∀ (sites : List ℕ) (st : AllocState), (∀ y, st.area_served_trips y ≤ demand_oversell y) →
      ∀ y, (allocLoop STATION_COST CHARGER_COST MAX_CHARGERS CAP_SPOT [0] demand_oversell
        tr_oversell sites st).area_served_trips y ≤ demand_oversell y) ∧
    (∀ y, (runHeuristic STATION_COST CHARGER_COST MAX_CHARGERS CAP_SPOT [0] [0]
      demand_oversell tr_oversell BUDGET).area_served_trips y ≤ demand_oversell y) :=
  C4_proportional_demand_aware fun y => by
    show (0:ℚ) ≤ 100000
    decide

/-- C5, counterexample.  With a single area of zero demand (allowed by the
spec) the heuristic serves nothing, and the area is counted both as fully
covered (`0 ≥ 0`) and as not covered (`= 0`): the three class counts sum to
`2`, not `|areas| = 1`. -/
theorem C5_partition_counterexample :
    (fully_covered_areas demand_zero [0]
        (runHeuristic STATION_COST CHARGER_COST MAX_CHARGERS CAP_SPOT [0] [0]
          demand_zero tr_zero BUDGET).area_served_trips).length +
      (partially_covered_areas demand_zero [0]
        (runHeuristic STATION_COST CHARGER_COST MAX_CHARGERS CAP_SPOT [0] [0]
          demand_zero tr_zero BUDGET).area_served_trips).length +
      (not_covered_areas [0]
        (runHeuristic STATION_COST CHARGER_COST MAX_CHARGERS CAP_SPOT [0] [0]
          demand_zero tr_zero BUDGET).area_served_trips).length ≠
      ([0] : List ℕ).length := by
  with_unfolding_all decide

/-- C5, amended.  The fully / partially / not-covered classes place each
area in exactly one class — counts summing to `|areas|` with pairwise
disjointness — provided every area has positive demand and served amounts
are nonnegative; an area with zero demand and zero served lies in both the
fully-covered and the not-covered class. -/
theorem C5_partition_positive_demand {c served : ℕ → ℚ} {A : List ℕ}
    (hc : ∀ a ∈ A, 0 < c a) (hserved : ∀ a ∈ A, 0 ≤ served a) :
    ((fully_covered_areas c A served).length + (partially_covered_areas c A served).length +
        (not_covered_areas A served).length = A.length) ∧
      (∀ a, ¬ (a ∈ fully_covered_areas c A served ∧ a ∈ partially_covered_areas c A served)) ∧
      (∀ a, ¬ (a ∈ partially_covered_areas c A served ∧ a ∈ not_covered_areas A served)) ∧
      (∀ a, ¬ (a ∈ fully_covered_areas c A served ∧ a ∈ not_covered_areas A served)) := by
  refine ⟨covered_partition_count hc hserved, ?_, ?_, ?_⟩
  · rintro a ⟨hf, hp⟩
    have h1 := of_decide_eq_true (List.mem_filter.mp hf).2
    have h2 := of_decide_eq_true (List.mem_filter.mp hp).2
    linarith [h2.2]
  · rintro a ⟨hp, hn⟩
    have h2 := of_decide_eq_true (List.mem_filter.mp hp).2
    have h3 := of_decide_eq_true (List.mem_filter.mp hn).2
    linarith [h2.1]
  · rintro a ⟨hf, hn⟩
    have hmem := (List.mem_filter.mp hf).1
    have h1 := of_decide_eq_true (List.mem_filter.mp hf).2
    have h3 := of_decide_eq_true (List.mem_filter.mp hn).2
    have := hc a hmem
    rw [h3] at h1
    linarith

/-- Witness for the amended C5 partition statement on a concrete
positive-demand instance. -/
theorem C5_partition_positive_demand_witness :
    ((fully_covered_areas demand_const [0, 1] (fun _ => 0)).length +
        (partially_covered_areas demand_const [0, 1] (fun _ => 0)).length +
        (not_covered_areas [0, 1] (fun _ => 0)).length = ([0, 1] : List ℕ).length) ∧
      (∀ a, ¬ (a ∈ fully_covered_areas demand_const [0, 1] (fun _ => 0) ∧
        a ∈ partially_covered_areas demand_const [0, 1] (fun _ => 0))) ∧
      (∀ a, ¬ (a ∈ partially_covered_areas demand_const [0, 1] (fun _ => 0) ∧
        a ∈ not_covered_areas [0, 1] (fun _ => 0))) ∧
      (∀ a, ¬ (a ∈ fully_covered_areas demand_const [0, 1] (fun _ => 0) ∧
        a ∈ not_covered_areas [0, 1] (fun _ => 0))) :=
  C5_partition_positive_demand
    (fun a _ => by show (0:ℚ) < 100; decide)
    (fun a _ => le_rfl)

/-- C6.  Budget spend bound under the cost policy: the remaining budget
stays nonnegative through every loop iteration, and the money spent — the
sum over funded sites of `station_cost + chargers_built * charger_cost`,
read off from the final charger map by `site_spend` — accounts exactly for
the drop in `remaining_budget`, hence never exceeds the initial budget
(the affordability re-clamp keeps each site's cost within the remaining
budget). -/
theorem C6_budget_spend_bound {S C maxCh : ℤ} {cap : ℚ} {A P : List ℕ} {c : ℕ → ℚ}
    {tr : ℕ → ℕ → ℚ} {B : ℤ} (hC : 0 < C) (hP : P.Nodup) (hB : 0 ≤ B) :
    (∀ (sites : List ℕ) (st : AllocState), 0 ≤ st.remaining_budget →
      0 ≤ (allocLoop S C maxCh cap A c tr sites st).remaining_budget) ∧
    0 ≤ (runHeuristic S C maxCh cap A P c tr B).remaining_budget ∧
    (runHeuristic S C maxCh cap A P c tr B).remaining_budget +
      ((P.map fun p =>
        site_spend S C (runHeuristic S C maxCh cap A P c tr B).site_chargers p)).sum = B ∧
    ((P.map fun p =>
        site_spend S C (runHeuristic S C maxCh cap A P c tr B).site_chargers p)).sum ≤ B := by
  have hperm := sorted_sites_perm tr A P
  have hnd : (sorted_sites tr A P).Nodup := hperm.nodup_iff.mpr hP
  have hacc := @allocLoop_budget_accounting S C maxCh cap A c tr (sorted_sites tr A P)
    ⟨B, fun _ => 0, fun _ => 0⟩ hnd (fun p _ => rfl)
  have hmap : (((sorted_sites tr A P).map fun p =>
      site_spend S C (runHeuristic S C maxCh cap A P c tr B).site_chargers p)).sum =
      ((P.map fun p =>
        site_spend S C (runHeuristic S C maxCh cap A P c tr B).site_chargers p)).sum :=
    (hperm.map _).sum_eq
  have heq : (runHeuristic S C maxCh cap A P c tr B).remaining_budget +
      ((P.map fun p =>
        site_spend S C (runHeuristic S C maxCh cap A P c tr B).site_chargers p)).sum = B := by
    rw [← hmap]
    exact hacc
  have hnn : 0 ≤ (runHeuristic S C maxCh cap A P c tr B).remaining_budget :=
    allocLoop_budget_nonneg hC hB
  exact ⟨fun sites st h0 => allocLoop_budget_nonneg hC h0, hnn, heq, by linarith⟩

/-- Witness for C6 at the source constants with two sites and one area. -/
theorem C6_budget_spend_bound_witness :
    (∀ (sites : List ℕ) (st : AllocState), 0 ≤ st.remaining_budget →
      0 ≤ (allocLoop STATION_COST CHARGER_COST MAX_CHARGERS CAP_SPOT [0] demand_const
        tr_const_five sites st).remaining_budget) ∧
    0 ≤ (runHeuristic STATION_COST CHARGER_COST MAX_CHARGERS CAP_SPOT [0] [0, 1]
      demand_const tr_const_five BUDGET).remaining_budget ∧
    (runHeuristic STATION_COST CHARGER_COST MAX_CHARGERS CAP_SPOT [0] [0, 1]
      demand_const tr_const_five BUDGET).remaining_budget +
      ((([0, 1] : List ℕ).map fun p =>
        site_spend STATION_COST CHARGER_COST
          (runHeuristic STATION_COST CHARGER_COST MAX_CHARGERS CAP_SPOT [0] [0, 1]
            demand_const tr_const_five BUDGET).site_chargers p)).sum = BUDGET ∧
    ((([0, 1] : List ℕ).map fun p =>
        site_spend STATION_COST CHARGER_COST
          (runHeuristic STATION_COST CHARGER_COST MAX_CHARGERS CAP_SPOT [0] [0, 1]
            demand_const tr_const_five BUDGET).site_chargers p)).sum ≤ BUDGET :=
  C6_budget_spend_bound (by decide) (by decide) (by decide)

/-- C7.  Budget monotonicity: with the demand model, capacity, per-site cap,
station and charger costs and the (proportional) distribution policy fixed,
a run with a larger monetary budget covers at least as much demand.  The
ranking does not depend on the budget, a larger budget funds
pointwise-at-least-as-many chargers site by site, and whenever the
smaller-budget run keeps more money after a site it is about to halt anyway,
so its final served map is pointwise dominated. -/
theorem C7_budget_monotonicity {S C maxCh : ℤ} {cap : ℚ} {A P : List ℕ} {c : ℕ → ℚ}
    {tr : ℕ → ℕ → ℚ} {B₁ B₂ : ℤ} (hC : 0 < C) (hS : 0 ≤ S) (hcap : 0 ≤ cap)
    (htr : ∀ s a, 0 ≤ tr s a) (hB : B₁ ≤ B₂) :
    demand_covered c A (runHeuristic S C maxCh cap A P c tr B₁).area_served_trips ≤
      demand_covered c A (runHeuristic S C maxCh cap A P c tr B₂).area_served_trips := by
  have hmono := @allocLoop_served_mono S C maxCh cap A c tr hC hS hcap htr
    (sorted_sites tr A P) ⟨B₁, fun _ => 0, fun _ => 0⟩ ⟨B₂, fun _ => 0, fun _ => 0⟩
    hB (fun y => le_rfl)
  exact List.sum_le_sum fun a _ => min_le_min (hmono a) le_rfl

/-- Witness for C7: a budget of one station and one charger versus the full
source budget. -/
theorem C7_budget_monotonicity_witness :
    demand_covered demand_const [0, 1]
      (runHeuristic STATION_COST CHARGER_COST MAX_CHARGERS CAP_SPOT [0, 1] [0, 1]
        demand_const tr_const_five 30000).area_served_trips ≤
    demand_covered demand_const [0, 1]
      (runHeuristic STATION_COST CHARGER_COST MAX_CHARGERS CAP_SPOT [0, 1] [0, 1]
        demand_const tr_const_five BUDGET).area_served_trips :=
  C7_budget_monotonicity (by decide) (by decide) (by with_unfolding_all decide)
    (fun s a => by show (0:ℚ) ≤ 5; decide) (by decide)

/-- C8.  Coverage computation: `demand_covered` is by definition the sum of
`min(served_total(area), demand(area))`; `coverage_percent` is
`100 * demand_covered / total_demand`, is `0` by its guarded branch when
`total_demand = 0` (in particular for zero areas, with no exception in the
total model), and always lies in `[0, 100]` for nonnegative demands and trip
tables. -/
theorem C8_coverage_percent_bounds {S C maxCh : ℤ} {cap : ℚ} {A P : List ℕ} {c : ℕ → ℚ}
    {tr : ℕ → ℕ → ℚ} {B : ℤ} (hc : ∀ a ∈ A, 0 ≤ c a) (hcap : 0 ≤ cap)
    (htr : ∀ s a, 0 ≤ tr s a) :
    (total_demand c A = 0 →
      coverage_percent c A (runHeuristic S C maxCh cap A P c tr B).area_served_trips = 0) ∧
    (A = [] →
      coverage_percent c A (runHeuristic S C maxCh cap A P c tr B).area_served_trips = 0) ∧
    0 ≤ coverage_percent c A (runHeuristic S C maxCh cap A P c tr B).area_served_trips ∧
    coverage_percent c A (runHeuristic S C maxCh cap A P c tr B).area_served_trips ≤ 100 := by
  have hs0 : ∀ y, (0:ℚ) ≤ (runHeuristic S C maxCh cap A P c tr B).area_served_trips y :=
    fun y => le_allocLoop_served hcap htr y
  have hdc0 : 0 ≤ demand_covered c A
      (runHeuristic S C maxCh cap A P c tr B).area_served_trips := by
    refine List.sum_nonneg ?_
    intro x hx
    rcases List.mem_map.mp hx with ⟨a, ha, rfl⟩
    exact le_min (hs0 a) (hc a ha)
  have hdct : demand_covered c A
      (runHeuristic S C maxCh cap A P c tr B).area_served_trips ≤ total_demand c A :=
    List.sum_le_sum fun a _ => min_le_right _ _
  refine ⟨?_, ?_, ?_, ?_⟩
  · intro h
    rw [coverage_percent, if_neg (by rw [h]; exact lt_irrefl 0)]
  · intro h
    subst h
    rw [coverage_percent, if_neg (by rw [total_demand]; exact lt_irrefl 0)]
  · rw [coverage_percent]
    split
    · rename_i h
      exact mul_nonneg (div_nonneg hdc0 h.le) (by norm_num)
    · exact le_rfl
  · rw [coverage_percent]
    split
    · rename_i h
      have h1 : demand_covered c A
          (runHeuristic S C maxCh cap A P c tr B).area_served_trips / total_demand c A ≤ 1 :=
        (div_le_one h).mpr hdct
      have h2 := mul_le_mul_of_nonneg_right h1 (by norm_num : (0:ℚ) ≤ 100)
      linarith
    · norm_num

/-- Witness for C8 on a concrete two-area instance. -/
theorem C8_coverage_percent_bounds_witness :
    (total_demand demand_const [0, 1] = 0 →
      coverage_percent demand_const [0, 1]
        (runHeuristic STATION_COST CHARGER_COST MAX_CHARGERS CAP_SPOT [0, 1] [0]
          demand_const tr_const_five BUDGET).area_served_trips = 0) ∧
    (([0, 1] : List ℕ) = [] →
      coverage_percent demand_const [0, 1]
        (runHeuristic STATION_COST CHARGER_COST MAX_CHARGERS CAP_SPOT [0, 1] [0]
          demand_const tr_const_five BUDGET).area_served_trips = 0) ∧
    0 ≤ coverage_percent demand_const [0, 1]
      (runHeuristic STATION_COST CHARGER_COST MAX_CHARGERS CAP_SPOT [0, 1] [0]
        demand_const tr_const_five BUDGET).area_served_trips ∧
    coverage_percent demand_const [0, 1]
      (runHeuristic STATION_COST CHARGER_COST MAX_CHARGERS CAP_SPOT [0, 1] [0]
        demand_const tr_const_five BUDGET).area_served_trips ≤ 100 :=
  C8_coverage_percent_bounds (by decide) (by with_unfolding_all decide)
    (fun s a => by show (0:ℚ) ≤ 5; decide)

/-- C9.  Terminal halt under the cost policy: the loop proceeds at a site
only when `station_cost + charger_cost ≤ remaining_budget`, and otherwise —
or when even one charger is unaffordable after the re-clamp — the whole pass
returns the state unchanged, so every site after the halting point keeps
exactly zero chargers and no exception is raised (the loop is a total
function returning the state). -/
theorem C9_terminal_halt {S C maxCh : ℤ} {cap : ℚ} {A : List ℕ} {c : ℕ → ℚ}
    {tr : ℕ → ℕ → ℚ} :
    (∀ (sites : List ℕ) (st : AllocState), st.remaining_budget < S + C →
      allocLoop S C maxCh cap A c tr sites st = st) ∧
    (∀ (site : ℕ) (rest : List ℕ) (st : AllocState),
      ¬ st.remaining_budget < S + C →
      chargers_to_place S C maxCh cap (site_total_demand tr A site)
        st.remaining_budget < 1 →
      allocLoop S C maxCh cap A c tr (site :: rest) st = st) := by
  refine ⟨fun sites st h => allocLoop_halt h, ?_⟩
  intro site rest st hg hn
  simp only [allocLoop, if_neg hg, if_pos hn]

/-- Witness for C9: with budget `29999 < 30000` the pass over two sites
returns the state unchanged. -/
theorem C9_terminal_halt_witness :
    allocLoop STATION_COST CHARGER_COST MAX_CHARGERS CAP_SPOT [0] demand_const
      tr_const_five [0, 1] ⟨29999, fun _ => 0, fun _ => 0⟩ =
      ⟨29999, fun _ => 0, fun _ => 0⟩ :=
  (@C9_terminal_halt STATION_COST CHARGER_COST MAX_CHARGERS CAP_SPOT [0] demand_const
    tr_const_five).1 [0, 1] ⟨29999, fun _ => 0, fun _ => 0⟩ (by decide)

/-- C10.  A reachable site with zero total trip volume still receives
exactly one charger (`floor(0 / capacity) + 1 = 1`, clamped by `max(1, -)`),
consuming `station_cost + charger_cost` of budget while serving nothing:
every distribution guard `trips > 0` fails, so `area_served_trips` is
unchanged and the proportional division by the site's total trips is never
executed. -/
theorem C10_zero_traffic_site {S C maxCh : ℤ} {cap : ℚ} {A : List ℕ} {c : ℕ → ℚ}
    {tr : ℕ → ℕ → ℚ} {site : ℕ} {rest : List ℕ} {st : AllocState}
    (hz : ∀ a ∈ A, tr site a = 0) (hB : S + C ≤ st.remaining_budget) :
    allocLoop S C maxCh cap A c tr (site :: rest) st =
      allocLoop S C maxCh cap A c tr rest
        { remaining_budget := st.remaining_budget - (S + C)
          site_chargers := Function.update st.site_chargers site 1
          area_served_trips := st.area_served_trips } := by
  have hT : site_total_demand tr A site = 0 := by
    rw [site_total_demand, List.map_congr_left (fun a ha => hz a ha), List.map_const']
    simp
  have hctp : chargers_to_place S C maxCh cap (site_total_demand tr A site)
      st.remaining_budget = 1 := by
    rw [hT]
    simp only [chargers_to_place, chargers_pre, zero_div, Int.floor_zero, zero_add]
    rw [max_eq_left (min_le_left _ _), if_neg (by rw [one_mul]; exact not_lt.mpr hB)]
  have hg : ¬ st.remaining_budget < S + C := not_lt.mpr hB
  have hn : ¬ chargers_to_place S C maxCh cap (site_total_demand tr A site)
      st.remaining_budget < 1 := by
    rw [hctp]
    exact lt_irrefl 1
  rw [allocLoop_cons_funded hg hn, hctp]
  have e1 : st.remaining_budget - (S + 1 * C) = st.remaining_budget - (S + C) := by ring
  rw [e1, area_served_update_no_trips hz]

/-- Witness for C10: the zero trip table, one area, full source budget. -/
theorem C10_zero_traffic_site_witness :
    allocLoop STATION_COST CHARGER_COST MAX_CHARGERS CAP_SPOT [0] demand_const tr_zero
      (0 :: [1]) ⟨BUDGET, fun _ => 0, fun _ => 0⟩ =
      allocLoop STATION_COST CHARGER_COST MAX_CHARGERS CAP_SPOT [0] demand_const tr_zero
        [1] ⟨BUDGET - (STATION_COST + CHARGER_COST),
          Function.update (fun _ => 0) 0 1, fun _ => 0⟩ :=
  C10_zero_traffic_site (by decide) (by decide)

end EVPlacement
